import Mathlib

/-!
Verification of the CUHK-SYSU dataset adapter (`src/cuhk_sysu.py`).

The module loads MATLAB annotation files (a test pool, a global image list
with per-image boxes, a train identity protocol, a test query/gallery
protocol), reconciles them into a per-image roidb with person identities,
caches the result on disk, and registers two named datasets with an
external catalog.

Shallow embedding conventions:
* The contents of the annotation files, the image sizes returned by
  `Image.open` (with `none` for a missing/unreadable file) and the on-disk
  cache (keyed by split name) form a `World`.
* Box coordinates are integers (the dataset stores integer pixel
  coordinates; `astype(np.int32)` is then the identity).
* Python exceptions (`KeyError`, `AssertionError`, missing files) are
  modelled by `Option`: `none` means the call raised.
* Python dicts are association lists where insertion prepends (so lookup,
  which takes the first hit, sees the latest binding) and in-place update
  rewrites the first binding of the key.
* The roidb assembly loop mutates `name_to_boxes[im]` in place; the model
  threads the updated dictionary through the loop.  (numpy array aliasing
  between the dict and already-appended records is not representable; the
  two agree whenever the split's image-index list has no duplicate names,
  which is the situation the invariant claims are stated under.)
-/

namespace CuhkSysu

/-- A box of four integer coordinates.  In `Images.mat` and in the
protocols a box is `(x, y, w, h)`; after assembly it is `(x1, y1, x2, y2)`. -/
structure Box where
  a : Int
  b : Int
  c : Int
  d : Int
deriving DecidableEq

/-- The in-place conversion `boxes[:, 2] += boxes[:, 0]; boxes[:, 3] += boxes[:, 1]`
turning `(x, y, w, h)` into `(x1, y1, x2, y2)`. -/
def conv (bx : Box) : Box :=
  ⟨bx.a, bx.b, bx.c + bx.a, bx.d + bx.b⟩

/-- The validity filter `(boxes[:, 2] > 0) & (boxes[:, 3] > 0)`. -/
def validBox (bx : Box) : Bool :=
  decide (0 < bx.c) && decide (0 < bx.d)

/-- Value stored under an image name: `name_to_boxes[im]` and
`name_to_pids[im]` (same index set). -/
abbrev Entry := List Box × List Int

/-- A Python dict as an association list. -/
abbrev Dict := List (String × Entry)

/-- Dict lookup: first binding wins (`d[k]`, as `Option`). -/
def dictGet : Dict → String → Option Entry
  | [], _ => none
  | (k1, v) :: t, k => if k1 = k then some v else dictGet t k

/-- In-place update of the (first) binding of `k`; identity when `k` is absent. -/
def dictSet : Dict → String → Entry → Dict
  | [], _, _ => []
  | (k1, v1) :: t, k, v => if k1 = k then (k, v) :: t else (k1, v1) :: dictSet t k v

/-- Index of the first box equal to `box`, mirroring the scan
`for i in range(boxes.shape[0]): if np.all(boxes[i] == box)`. -/
def findBoxIdx : List Box → Box → Option Nat
  | [], _ => none
  | b1 :: t, box => if b1 = box then some 0 else (findBoxIdx t box).map (· + 1)

/-- `set_box_pid(boxes, box, pids, pid)`: write `pid` at the first index whose
box equals `box`; otherwise leave `pids` unchanged and log a warning.  The
boolean records whether the warning was emitted. -/
def set_box_pid (boxes : List Box) (box : Box) (pids : List Int) (pid : Int) :
    List Int × Bool :=
  match findBoxIdx boxes box with
  | some i => (pids.set i pid, false)
  | none => (pids, true)

/-- Build `name_to_boxes` / `name_to_pids` from `Images.mat`: keep the valid
boxes of each image, assert that some remain (`none` = `AssertionError`),
initialise every pid to `-1`.  Later entries shadow earlier ones, as for a
Python dict written in file order. -/
def buildDict (acc : Dict) : List (String × List Box) → Option Dict
  | [] => some acc
  | (im, bs) :: t =>
    if bs.filter validBox = [] then none
    else buildDict
      ((im, (bs.filter validBox, List.replicate (bs.filter validBox).length (-1))) :: acc) t

/-- One protocol assignment: look the image up (`none` = `KeyError`), run
`set_box_pid` on its boxes/pids and store the updated pids back. -/
def applyScene (d : Dict) (pid : Int) (im : String) (box : Box) : Option Dict :=
  match dictGet d im with
  | none => none
  | some (bs, ps) => some (dictSet d im (bs, (set_box_pid bs box ps pid).1))

/-- All scenes of one training person (fixed pid). -/
def applyPersonScenes (d : Dict) (pid : Int) : List (String × Box) → Option Dict
  | [] => some d
  | (im, box) :: t =>
    match applyScene d pid im box with
    | none => none
    | some d1 => applyPersonScenes d1 pid t

/-- The `Train.mat` loop: persons enumerated from `i0`, each labelling its
scenes with its index as pid. -/
def applyTrainFrom (d : Dict) (i0 : Int) : List (List (String × Box)) → Option Dict
  | [] => some d
  | p :: t =>
    match applyPersonScenes d i0 p with
    | none => none
    | some d1 => applyTrainFrom d1 (i0 + 1) t

/-- A gallery line of `TestG50.mat`: image name and box, where `none`
models an empty (`box.size == 0`) box. -/
abbrev GalleryLine := String × Option Box

/-- One query of `TestG50.mat`: the query (image, box) and its gallery. -/
abbrev TestItem := (String × Box) × List GalleryLine

/-- The gallery loop of one query: stop (`break`) at the first empty box —
before any dict lookup — otherwise assign the query's pid by box match. -/
def applyGallery (d : Dict) (pid : Int) : List GalleryLine → Option Dict
  | [] => some d
  | (_, none) :: _ => some d
  | (im, some box) :: t =>
    match applyScene d pid im box with
    | none => none
    | some d1 => applyGallery d1 pid t

/-- One `TestG50` item: the query first, then its gallery. -/
def applyTestItem (d : Dict) (pid : Int) (item : TestItem) : Option Dict :=
  match applyScene d pid item.1.1 item.1.2 with
  | none => none
  | some d1 => applyGallery d1 pid item.2

/-- The `TestG50.mat` loop: items enumerated from `i0`. -/
def applyTestFrom (d : Dict) (i0 : Int) : List TestItem → Option Dict
  | [] => some d
  | item :: t =>
    match applyTestItem d i0 item with
    | none => none
    | some d1 => applyTestFrom d1 (i0 + 1) t

/-- One assembled roidb record. -/
structure RoidbEntry where
  gt_boxes : List Box
  gt_pids : List Int
  image : String
  height : Nat
  width : Nat
deriving DecidableEq

/-- `osp.join(dirname, "Image", "SSM", name)`. -/
def image_path (dirname name : String) : String :=
  dirname ++ "/Image/SSM/" ++ name

/-- The whole annotation environment of one dataset root: the files read by
the adapter, the sizes `Image.open` reports (`none` = missing file), and
the cache directory contents, keyed by split name. -/
structure World where
  pool : List String
  images : List (String × List Box)
  train : List (List (String × Box))
  test : List TestItem
  sizes : String → Option (Nat × Nat)
  cache : String → Option (List RoidbEntry)

/-- `load_image_indexes`: the pool for "test"; otherwise the sorted
set-difference `list(set(all_imgs) - set(test))`. -/
def load_image_indexes (w : World) (split : String) : List String :=
  if split = "test" then w.pool
  else
    List.insertionSort (· ≤ ·)
      (((w.images.map Prod.fst).filter fun n => !(w.pool.contains n)).dedup)

/-- The roidb construction loop: for each index, look its boxes up
(`KeyError` when absent), convert them in place, read the image size
(`none` = missing image file), and append the record. -/
def buildRoidb (dn : String) (sizes : String → Option (Nat × Nat)) (d : Dict) :
    List String → Option (List RoidbEntry × Dict)
  | [] => some ([], d)
  | im :: t =>
    match dictGet d im with
    | none => none
    | some (bs, ps) =>
      match sizes im with
      | none => none
      | some (wd, ht) =>
        match buildRoidb dn sizes (dictSet d im (bs.map conv, ps)) t with
        | none => none
        | some (rest, d2) =>
          some ({ gt_boxes := bs.map conv, gt_pids := ps,
                  image := image_path dn im, height := ht, width := wd } :: rest, d2)

/-- `load_roidb`: return the cache file when it exists; otherwise parse the
global image list, apply the split's protocol, assemble the records over
the split's image indexes, and write the cache.  The returned `World`
carries the updated cache directory. -/
def load_roidb (dn : String) (w : World) (split : String) :
    Option (List RoidbEntry × World) :=
  match w.cache split with
  | some r => some (r, w)
  | none =>
    match buildDict [] w.images with
    | none => none
    | some d0 =>
      match (if split = "train" then applyTrainFrom d0 0 w.train
             else applyTestFrom d0 0 w.test) with
      | none => none
      | some d =>
        match buildRoidb dn w.sizes d (load_image_indexes w split) with
        | none => none
        | some (r, _) =>
          some (r, { w with cache := fun s => if s = split then some r else w.cache s })

/-- One annotation of the detectron2 record schema. -/
structure InstanceAnno where
  bbox : Box
  category_id : Nat
  person_id : Int
deriving DecidableEq

/-- One per-image dict of the detectron2 record schema. -/
structure InstanceDict where
  file_name : String
  image_id : String
  height : Nat
  width : Nat
  annotations : List InstanceAnno
deriving DecidableEq

/-- `load_cuhk_sysu_instances(dirname, split)`: run the adapter and convert
each roidb record (indexing `dataset.roidb[i]` raises when the cached list
is shorter than the index list). -/
def load_cuhk_sysu_instances (dn : String) (w : World) (split : String) :
    Option (List InstanceDict × World) :=
  match load_roidb dn w split with
  | none => none
  | some (roidb, w1) =>
    let idx := load_image_indexes w split
    if idx.length ≤ roidb.length then
      some ((idx.zip roidb).map fun p =>
        { file_name := p.2.image, image_id := p.1, height := p.2.height,
          width := p.2.width,
          annotations := (p.2.gt_boxes.zip p.2.gt_pids).map fun q =>
            { bbox := q.1, category_id := 1, person_id := q.2 } }, w1)
    else none

/-- The external catalog after `register_cuhk_sysu`: the registered names,
plus the state of the variables the registered lambdas close over.  Python
closures capture variables, not values: both lambdas read the one loop
variable `split`, and a producer is only invoked after the loop has
finished, so the cell holds the last iteration's value. -/
structure Catalog where
  names : List String
  dirname_cell : String
  split_cell : String

/-- `register_cuhk_sysu(dirname)`: iterate over
`zip(["cuhk_sysu_train", "cuhk_sysu_test"], ["train", "test"])`, registering
each name and rebinding the shared loop variables. -/
def register_cuhk_sysu (dirname : String) : Catalog :=
  [("cuhk_sysu_train", "train"), ("cuhk_sysu_test", "test")].foldl
    (fun c p => { names := c.names ++ [p.1], dirname_cell := dirname, split_cell := p.2 })
    { names := [], dirname_cell := dirname, split_cell := "" }

/-- Invoking the producer registered under `name` on the world `w`: the
lambda evaluates `load_cuhk_sysu_instances(dirname, split)` with the
captured variables' current values.  Outer `none` = name not registered;
we return only the record list (the catalog does not see the world). -/
def callProducer (c : Catalog) (name : String) (w : World) :
    Option (Option (List InstanceDict)) :=
  if name ∈ c.names then
    some ((load_cuhk_sysu_instances c.dirname_cell w c.split_cell).map Prod.fst)
  else none

/-! ### Helper lemmas about the dictionary and `set_box_pid` -/

lemma findBoxIdx_eq_none {bs : List Box} {box : Box} (h : ∀ b ∈ bs, b ≠ box) :
    findBoxIdx bs box = none := by
  induction bs with
  | nil => rfl
  | cons b t ih =>
    have hb : b ≠ box := h b (List.mem_cons_self b t)
    simp only [findBoxIdx, if_neg hb]
    rw [ih fun x hx => h x (List.mem_cons_of_mem b hx)]
    rfl

lemma findBoxIdx_eq_some {bs : List Box} {box : Box} {i : Nat}
    (h : findBoxIdx bs box = some i) : ∃ hi : i < bs.length, bs.get ⟨i, hi⟩ = box := by
  induction bs generalizing i with
  | nil => exact Option.noConfusion h
  | cons b t ih =>
    by_cases hb : b = box
    · simp only [findBoxIdx, if_pos hb] at h
      cases h
      exact ⟨Nat.succ_pos _, hb⟩
    · simp only [findBoxIdx, if_neg hb] at h
      cases hfi : findBoxIdx t box with
      | none => rw [hfi] at h; simp at h
      | some j =>
        rw [hfi] at h
        have h2 : some (j + 1) = some i := h
        cases h2
        obtain ⟨hj, hget⟩ := ih hfi
        exact ⟨Nat.succ_lt_succ hj, hget⟩

lemma set_box_pid_length (bs : List Box) (box : Box) (ps : List Int) (pid : Int) :
    ((set_box_pid bs box ps pid).1).length = ps.length := by
  unfold set_box_pid
  cases findBoxIdx bs box with
  | none => rfl
  | some i => simp [List.length_set]

lemma set_box_pid_get {bs : List Box} {box : Box} {ps : List Int} {pid : Int}
    {j : Nat} (hj : j < ps.length)
    (hj1 : j < ((set_box_pid bs box ps pid).1).length) :
    ((set_box_pid bs box ps pid).1).get ⟨j, hj1⟩ = ps.get ⟨j, hj⟩ ∨
      (((set_box_pid bs box ps pid).1).get ⟨j, hj1⟩ = pid ∧
        ∃ hb : j < bs.length, bs.get ⟨j, hb⟩ = box) := by
  revert hj1
  unfold set_box_pid
  cases hfi : findBoxIdx bs box with
  | none => intro hj1; left; rfl
  | some i =>
    intro hj1
    obtain ⟨hib, hibox⟩ := findBoxIdx_eq_some hfi
    by_cases hij : i = j
    · right
      subst hij
      refine ⟨?_, hib, hibox⟩
      simp only [List.get_eq_getElem]
      exact List.getElem_set_self (by simpa using hj1)
    · left
      simp only [List.get_eq_getElem]
      exact List.getElem_set_ne hij (by simpa using hj1)

lemma dictGet_dictSet_self {d : Dict} {k : String} {v0 : Entry} (h : dictGet d k = some v0)
    (v : Entry) : dictGet (dictSet d k v) k = some v := by
  induction d with
  | nil => exact Option.noConfusion h
  | cons p t ih =>
    obtain ⟨k1, v1⟩ := p
    by_cases hk : k1 = k
    · subst hk
      simp [dictSet, dictGet]
    · simp only [dictGet, if_neg hk] at h
      simp only [dictSet, if_neg hk, dictGet, if_neg hk]
      exact ih h

lemma dictGet_dictSet_ne {d : Dict} {k x : String} (hx : x ≠ k) (v : Entry) :
    dictGet (dictSet d k v) x = dictGet d x := by
  induction d with
  | nil => rfl
  | cons p t ih =>
    obtain ⟨k1, v1⟩ := p
    by_cases hk : k1 = k
    · subst hk
      simp only [dictSet, if_pos rfl, dictGet]
      rw [if_neg fun h => hx h.symm, if_neg fun h => hx h.symm]
    · simp only [dictSet, if_neg hk, dictGet]
      by_cases hpx : k1 = x
      · simp [hpx]
      · simp [hpx, ih]

lemma dictSet_of_get_none {d : Dict} {k : String} (h : dictGet d k = none) (v : Entry) :
    dictSet d k v = d := by
  induction d with
  | nil => rfl
  | cons p t ih =>
    obtain ⟨k1, v1⟩ := p
    by_cases hk : k1 = k
    · simp [dictGet, hk] at h
    · simp only [dictGet, if_neg hk] at h
      simp [dictSet, if_neg hk, ih h]

lemma dictGet_dictSet_none_iff {d : Dict} {k x : String} {v : Entry} :
    dictGet (dictSet d k v) x = none ↔ dictGet d x = none := by
  by_cases hx : x = k
  · subst hx
    cases hg : dictGet d x with
    | none => rw [dictSet_of_get_none hg]; simp [hg]
    | some v0 => rw [dictGet_dictSet_self hg v]; simp [hg]
  · rw [dictGet_dictSet_ne hx]

lemma dictGet_cons_self {k : String} {v : Entry} {t : Dict} :
    dictGet ((k, v) :: t) k = some v := by
  simp [dictGet]

lemma dictGet_cons_ne {k x : String} {v : Entry} {t : Dict} (h : k ≠ x) :
    dictGet ((k, v) :: t) x = dictGet t x := by
  simp [dictGet, h]

lemma buildDict_spec :
    ∀ {l : List (String × List Box)} {acc d : Dict},
      buildDict acc l = some d → ∀ x e, dictGet d x = some e →
        dictGet acc x = some e ∨
          ∃ src, (x, src) ∈ l ∧ e.1 = src.filter validBox ∧ e.1 ≠ [] ∧
            e.2 = List.replicate e.1.length (-1) := by
  intro l
  induction l with
  | nil =>
    intro acc d h x e hg
    simp only [buildDict, Option.some.injEq] at h
    subst h
    exact Or.inl hg
  | cons p t ih =>
    intro acc d h x e hg
    obtain ⟨im, bs⟩ := p
    simp only [buildDict] at h
    by_cases hv : bs.filter validBox = []
    · rw [if_pos hv] at h
      exact Option.noConfusion h
    · rw [if_neg hv] at h
      rcases ih h x e hg with hacc | hfound
      · by_cases hx : im = x
        · subst hx
          rw [dictGet_cons_self, Option.some.injEq] at hacc
          obtain rfl := hacc
          exact Or.inr ⟨bs, List.mem_cons_self _ _, rfl, hv, rfl⟩
        · rw [dictGet_cons_ne hx] at hacc
          exact Or.inl hacc
      · obtain ⟨src, hsrc, hrest⟩ := hfound
        exact Or.inr ⟨src, List.mem_cons_of_mem _ hsrc, hrest⟩

lemma buildDict_entries {l : List (String × List Box)} {d : Dict}
    (h : buildDict [] l = some d) {x : String} {e : Entry}
    (hg : dictGet d x = some e) :
    ∃ src, (x, src) ∈ l ∧ e.1 = src.filter validBox ∧ e.1 ≠ [] ∧
      e.2 = List.replicate e.1.length (-1) := by
  rcases buildDict_spec h x e hg with habs | h2
  · exact Option.noConfusion habs
  · exact h2

lemma buildDict_not_mem :
    ∀ {l : List (String × List Box)} {acc d : Dict} {x : String},
      buildDict acc l = some d → dictGet acc x = none → x ∉ l.map Prod.fst →
      dictGet d x = none := by
  intro l
  induction l with
  | nil =>
    intro acc d x h hacc _
    simp only [buildDict, Option.some.injEq] at h
    subst h
    exact hacc
  | cons p t ih =>
    intro acc d x h hacc hnm
    obtain ⟨im, bs⟩ := p
    simp only [buildDict] at h
    by_cases hv : bs.filter validBox = []
    · rw [if_pos hv] at h
      exact Option.noConfusion h
    · rw [if_neg hv] at h
      have hxim : im ≠ x := by
        intro heq
        exact hnm (by simp [heq])
      refine ih h ?_ (fun hmem => hnm (List.mem_cons_of_mem _ hmem))
      rw [dictGet_cons_ne hxim]
      exact hacc

lemma forall2_imp_mem {α β : Type} {P Q : α → β → Prop} :
    ∀ {l : List α} {r : List β}, List.Forall₂ P l r →
      (∀ a ∈ l, ∀ b, P a b → Q a b) → List.Forall₂ Q l r := by
  intro l r h
  induction h with
  | nil => intro _; exact List.Forall₂.nil
  | cons hab htail ih =>
    intro himp
    exact List.Forall₂.cons (himp _ (List.mem_cons_self _ _) _ hab)
      (ih fun a ha b => himp a (List.mem_cons_of_mem _ ha) b)

lemma forall2_mem_right {α β : Type} {P : α → β → Prop} :
    ∀ {l : List α} {r : List β}, List.Forall₂ P l r →
      ∀ {b}, b ∈ r → ∃ a ∈ l, P a b := by
  intro l r h
  induction h with
  | nil => intro b hb; exact absurd hb (List.not_mem_nil _)
  | cons hab htail ih =>
    intro b hb
    rcases List.mem_cons.mp hb with rfl | hb2
    · exact ⟨_, List.mem_cons_self _ _, hab⟩
    · obtain ⟨a, ha, hPab⟩ := ih hb2
      exact ⟨a, List.mem_cons_of_mem _ ha, hPab⟩

/-- What the assembly loop guarantees for one image name, given the
dictionary entry `g` it sees: boxes converted, pids carried over, path and
size recorded. -/
def RecSpec (dn : String) (sizes : String → Option (Nat × Nat)) (g : Option Entry)
    (im : String) (rec : RoidbEntry) : Prop :=
  ∃ bs ps wd ht, g = some (bs, ps) ∧ sizes im = some (wd, ht) ∧
    rec = { gt_boxes := bs.map conv, gt_pids := ps,
            image := image_path dn im, height := ht, width := wd }

lemma buildRoidb_spec (dn : String) (sizes : String → Option (Nat × Nat)) :
    ∀ {idx : List String} {d : Dict} {r : List RoidbEntry} {d2 : Dict},
      idx.Nodup → buildRoidb dn sizes d idx = some (r, d2) →
      List.Forall₂ (fun im rec => RecSpec dn sizes (dictGet d im) im rec) idx r := by
  intro idx
  induction idx with
  | nil =>
    intro d r d2 _ h
    simp only [buildRoidb, Option.some.injEq, Prod.mk.injEq] at h
    obtain ⟨rfl, rfl⟩ := h
    exact List.Forall₂.nil
  | cons im t ih =>
    intro d r d2 hnd h
    simp only [buildRoidb] at h
    cases hg : dictGet d im with
    | none => simp only [hg] at h; exact Option.noConfusion h
    | some e =>
      obtain ⟨bs, ps⟩ := e
      simp only [hg] at h
      cases hsz : sizes im with
      | none => simp only [hsz] at h; exact Option.noConfusion h
      | some wh =>
        obtain ⟨wd, ht⟩ := wh
        simp only [hsz] at h
        cases hbr : buildRoidb dn sizes (dictSet d im (bs.map conv, ps)) t with
        | none => simp only [hbr] at h; exact Option.noConfusion h
        | some pr =>
          obtain ⟨rest, d3⟩ := pr
          simp only [hbr, Option.some.injEq, Prod.mk.injEq] at h
          obtain ⟨rfl, rfl⟩ := h
          constructor
          · exact ⟨bs, ps, wd, ht, hg, hsz, rfl⟩
          · have hnds := List.nodup_cons.mp hnd
            have htail := ih hnds.2 hbr
            refine forall2_imp_mem htail ?_
            intro a ha rec hrec
            have hne : a ≠ im := fun heq => hnds.1 (heq ▸ ha)
            rwa [dictGet_dictSet_ne hne] at hrec

/-! ### Claim theorems: simple claims -/

/-- Claim C3: a protocol box that matches no box of the (present) image's
box list makes `set_box_pid` log a warning, leave every identity unchanged,
and return normally (no exception). -/
theorem c3_unmatched_box_warns (boxes : List Box) (box : Box) (pids : List Int)
    (pid : Int) (h : ∀ b ∈ boxes, b ≠ box) :
    set_box_pid boxes box pids pid = (pids, true) := by
  unfold set_box_pid
  rw [findBoxIdx_eq_none h]

/-- Witness for C3 at the spec's example: protocol box `(1, 1, 3, 3)` against
the single image box `(10, 10, 5, 5)` warns and leaves the pid at `-1`. -/
theorem c3_unmatched_box_warns_witness :
    (∀ b ∈ [(⟨10, 10, 5, 5⟩ : Box)], b ≠ ⟨1, 1, 3, 3⟩) ∧
      set_box_pid [⟨10, 10, 5, 5⟩] ⟨1, 1, 3, 3⟩ [-1] 0 = ([-1], true) :=
  ⟨by decide, c3_unmatched_box_warns _ _ _ _ (by decide)⟩

/-- Claim C10: the gallery loop of one test query stops at the first entry
with an empty box: the entries after it are never processed (so none of
them can receive the query's identity), whatever boxes they carry. -/
theorem c10_gallery_break (d : Dict) (pid : Int) (pre post : List GalleryLine)
    (im : String) :
    applyGallery d pid (pre ++ (im, none) :: post) = applyGallery d pid pre := by
  induction pre generalizing d with
  | nil => rfl
  | cons g t ih =>
    cases g with
    | mk gim gbox =>
      cases gbox with
      | none => rfl
      | some b =>
        simp only [List.cons_append, applyGallery]
        cases applyScene d pid gim b with
        | none => rfl
        | some d1 => exact ih d1

/-- How protocol application evolves the dictionary: the key set and every
box list are unchanged, pid lists keep their length, and every pid is
either unchanged or accounted for by the write-description `P`. -/
def Writes (d d1 : Dict) (P : String → List Box → Nat → Int → Prop) : Prop :=
  (∀ x, dictGet d1 x = none ↔ dictGet d x = none) ∧
  ∀ x bs ps1, dictGet d1 x = some (bs, ps1) →
    ∃ ps, dictGet d x = some (bs, ps) ∧ ps1.length = ps.length ∧
      ∀ j (hj1 : j < ps1.length) (hj : j < ps.length),
        ps1.get ⟨j, hj1⟩ = ps.get ⟨j, hj⟩ ∨ P x bs j (ps1.get ⟨j, hj1⟩)

lemma Writes.rfl {d : Dict} {P : String → List Box → Nat → Int → Prop} :
    Writes d d P :=
  ⟨fun _ => Iff.rfl, fun _ _ ps1 h => ⟨ps1, h, by rfl, fun _ _ _ => Or.inl (by rfl)⟩⟩

lemma Writes.trans {d d1 d2 : Dict} {P Q : String → List Box → Nat → Int → Prop}
    (h1 : Writes d d1 P) (h2 : Writes d1 d2 Q) :
    Writes d d2 (fun x bs j v => P x bs j v ∨ Q x bs j v) := by
  obtain ⟨hdom1, hv1⟩ := h1
  obtain ⟨hdom2, hv2⟩ := h2
  refine ⟨fun x => (hdom2 x).trans (hdom1 x), ?_⟩
  intro x bs ps2 hg2
  obtain ⟨ps1, hg1, hlen21, hval2⟩ := hv2 x bs ps2 hg2
  obtain ⟨ps, hg, hlen1, hval1⟩ := hv1 x bs ps1 hg1
  refine ⟨ps, hg, hlen21.trans hlen1, ?_⟩
  intro j hj2 hj
  have hj1 : j < ps1.length := hlen21 ▸ hj2
  rcases hval2 j hj2 hj1 with he | hq
  · rcases hval1 j hj1 hj with he1 | hp
    · exact Or.inl (he.trans he1)
    · rw [he]
      exact Or.inr (Or.inl hp)
  · exact Or.inr (Or.inr hq)

lemma Writes.mono {d d1 : Dict} {P Q : String → List Box → Nat → Int → Prop}
    (h : Writes d d1 P) (hpq : ∀ x bs j v, P x bs j v → Q x bs j v) :
    Writes d d1 Q := by
  refine ⟨h.1, fun x bs ps1 hg1 => ?_⟩
  obtain ⟨ps, hg, hlen, hval⟩ := h.2 x bs ps1 hg1
  exact ⟨ps, hg, hlen, fun j hj1 hj =>
    (hval j hj1 hj).imp id (hpq x bs j _)⟩

lemma applyScene_writes {d d1 : Dict} {pid : Int} {im : String} {box : Box}
    (h : applyScene d pid im box = some d1) :
    Writes d d1 (fun x bs j v =>
      x = im ∧ (∃ hb : j < bs.length, bs.get ⟨j, hb⟩ = box) ∧ v = pid) := by
  unfold applyScene at h
  cases hg : dictGet d im with
  | none => simp only [hg] at h; exact Option.noConfusion h
  | some e =>
    obtain ⟨bs0, ps0⟩ := e
    simp only [hg, Option.some.injEq] at h
    subst h
    constructor
    · intro x
      exact dictGet_dictSet_none_iff
    · intro x bs ps1 hg1
      by_cases hx : x = im
      · subst hx
        have hgs := dictGet_dictSet_self hg (bs0, (set_box_pid bs0 box ps0 pid).1)
        rw [hg1] at hgs
        simp only [Option.some.injEq, Prod.mk.injEq] at hgs
        obtain ⟨rfl, rfl⟩ := hgs
        refine ⟨ps0, hg, set_box_pid_length _ _ _ _, ?_⟩
        intro j hj1 hj
        rcases set_box_pid_get hj hj1 with he | hw
        · exact Or.inl he
        · exact Or.inr ⟨Eq.refl x, hw.2, hw.1⟩
      · rw [dictGet_dictSet_ne hx] at hg1
        exact ⟨ps1, hg1, by rfl, fun _ _ _ => Or.inl (by rfl)⟩

lemma applyPersonScenes_writes {pid : Int} :
    ∀ {scenes : List (String × Box)} {d d1 : Dict},
      applyPersonScenes d pid scenes = some d1 →
      Writes d d1 (fun x bs j v =>
        (∃ sc ∈ scenes, x = sc.1 ∧ ∃ hb : j < bs.length, bs.get ⟨j, hb⟩ = sc.2) ∧
          v = pid) := by
  intro scenes
  induction scenes with
  | nil =>
    intro d d1 h
    simp only [applyPersonScenes, Option.some.injEq] at h
    subst h
    exact Writes.rfl
  | cons sc t ih =>
    intro d d1 h
    obtain ⟨im, box⟩ := sc
    simp only [applyPersonScenes] at h
    cases has : applyScene d pid im box with
    | none => simp only [has] at h; exact Option.noConfusion h
    | some dmid =>
      simp only [has] at h
      refine ((applyScene_writes has).trans (ih h)).mono ?_
      intro x bs j v hv
      rcases hv with ⟨hx, hb, hvpid⟩ | ⟨⟨sc2, hsc2, hrest⟩, hvpid⟩
      · exact ⟨⟨(im, box), List.mem_cons_self _ _, hx, hb⟩, hvpid⟩
      · exact ⟨⟨sc2, List.mem_cons_of_mem _ hsc2, hrest⟩, hvpid⟩

lemma applyTrainFrom_writes :
    ∀ {proto : List (List (String × Box))} {d d1 : Dict} {i0 : Int},
      applyTrainFrom d i0 proto = some d1 →
      Writes d d1 (fun x bs j v => ∃ m, ∃ hm : m < proto.length,
        (∃ sc ∈ proto.get ⟨m, hm⟩, x = sc.1 ∧
          ∃ hb : j < bs.length, bs.get ⟨j, hb⟩ = sc.2) ∧ v = i0 + (m : Int)) := by
  intro proto
  induction proto with
  | nil =>
    intro d d1 i0 h
    simp only [applyTrainFrom, Option.some.injEq] at h
    subst h
    exact Writes.rfl
  | cons p t ih =>
    intro d d1 i0 h
    simp only [applyTrainFrom] at h
    cases has : applyPersonScenes d i0 p with
    | none => simp only [has] at h; exact Option.noConfusion h
    | some dmid =>
      simp only [has] at h
      refine ((applyPersonScenes_writes has).trans (ih h)).mono ?_
      intro x bs j v hv
      rcases hv with ⟨hsc, hvpid⟩ | ⟨m, hm, hsc, hvpid⟩
      · exact ⟨0, Nat.succ_pos _, hsc, by omega⟩
      · exact ⟨m + 1, Nat.succ_lt_succ hm, hsc, by push_cast at hvpid ⊢; omega⟩

lemma applyGallery_writes {pid : Int} :
    ∀ {gl : List GalleryLine} {d d1 : Dict},
      applyGallery d pid gl = some d1 →
      Writes d d1 (fun _ _ _ _ => True) := by
  intro gl
  induction gl with
  | nil =>
    intro d d1 h
    simp only [applyGallery, Option.some.injEq] at h
    subst h
    exact Writes.rfl
  | cons g t ih =>
    intro d d1 h
    obtain ⟨im, gbox⟩ := g
    cases gbox with
    | none =>
      simp only [applyGallery, Option.some.injEq] at h
      subst h
      exact Writes.rfl
    | some box =>
      simp only [applyGallery] at h
      cases has : applyScene d pid im box with
      | none => simp only [has] at h; exact Option.noConfusion h
      | some dmid =>
        simp only [has] at h
        exact ((applyScene_writes has).trans (ih h)).mono fun _ _ _ _ _ => trivial

lemma applyTestItem_writes {d d1 : Dict} {pid : Int} {item : TestItem}
    (h : applyTestItem d pid item = some d1) :
    Writes d d1 (fun _ _ _ _ => True) := by
  unfold applyTestItem at h
  cases has : applyScene d pid item.1.1 item.1.2 with
  | none => simp only [has] at h; exact Option.noConfusion h
  | some dmid =>
    simp only [has] at h
    exact ((applyScene_writes has).trans (applyGallery_writes h)).mono
      fun _ _ _ _ _ => trivial

lemma applyTestFrom_writes :
    ∀ {items : List TestItem} {d d1 : Dict} {i0 : Int},
      applyTestFrom d i0 items = some d1 →
      Writes d d1 (fun _ _ _ _ => True) := by
  intro items
  induction items with
  | nil =>
    intro d d1 i0 h
    simp only [applyTestFrom, Option.some.injEq] at h
    subst h
    exact Writes.rfl
  | cons item t ih =>
    intro d d1 i0 h
    simp only [applyTestFrom] at h
    cases has : applyTestItem d i0 item with
    | none => simp only [has] at h; exact Option.noConfusion h
    | some dmid =>
      simp only [has] at h
      exact ((applyTestItem_writes has).trans (ih h)).mono fun _ _ _ _ _ => trivial

lemma buildDict_fail {l : List (String × List Box)} {im : String} {bs : List Box}
    (hmem : (im, bs) ∈ l) (hbad : bs.filter validBox = []) (acc : Dict) :
    buildDict acc l = none := by
  induction l generalizing acc with
  | nil => exact absurd hmem (List.not_mem_nil _)
  | cons p t ih =>
    obtain ⟨im1, bs1⟩ := p
    by_cases h1 : bs1.filter validBox = []
    · simp [buildDict, h1]
    · rcases List.mem_cons.mp hmem with heq | hmem2
      · cases heq
        exact absurd hbad h1
      · simp only [buildDict, if_neg h1]
        exact ih hmem2 _

/-- The spec's C2 example world: one image "s1.jpg" with the single
`(x, y, w, h)` box `(10, 10, 5, 5)`, and one training person assigned
exactly that box. -/
def C2World : World :=
  { pool := []
    images := [("s1.jpg", [⟨10, 10, 5, 5⟩])]
    train := [[("s1.jpg", ⟨10, 10, 5, 5⟩)]]
    test := []
    sizes := fun _ => some (100, 50)
    cache := fun _ => none }

/-- Claim C2: on the spec's example the assembled record for "s1.jpg"
carries box `(10, 10, 15, 15)` with identity 0; and in general each
assembled record's boxes are `conv` (x2 = x + w, y2 = y + h) of the
dictionary boxes for its image name and its identities are exactly the
pre-conversion identities. -/
theorem c2_box_conversion :
    ((load_roidb "d" C2World "train").map Prod.fst = some
      [{ gt_boxes := [⟨10, 10, 15, 15⟩], gt_pids := [0],
         image := "d/Image/SSM/s1.jpg", height := 50, width := 100 }]) ∧
    (∀ (dn : String) (sizes : String → Option (Nat × Nat)) (d : Dict)
        (idx : List String) (r : List RoidbEntry) (d2 : Dict),
      idx.Nodup → buildRoidb dn sizes d idx = some (r, d2) →
      List.Forall₂ (fun im rec => RecSpec dn sizes (dictGet d im) im rec) idx r) :=
  ⟨by decide, fun dn sizes d idx r d2 hnd h => buildRoidb_spec dn sizes hnd h⟩

/-- Witness for C2's general half at the example's dictionary state. -/
theorem c2_box_conversion_witness :
    ((["s1.jpg"] : List String).Nodup ∧
      buildRoidb "d" (fun _ => some (100, 50))
          [("s1.jpg", ([⟨10, 10, 5, 5⟩], [0]))] ["s1.jpg"] =
        some ([{ gt_boxes := [⟨10, 10, 15, 15⟩], gt_pids := [0],
                 image := "d/Image/SSM/s1.jpg", height := 50, width := 100 }],
              [("s1.jpg", ([⟨10, 10, 15, 15⟩], [0]))])) ∧
    List.Forall₂ (fun im rec => RecSpec "d" (fun _ => some (100, 50))
        (dictGet [("s1.jpg", ([⟨10, 10, 5, 5⟩], [0]))] im) im rec)
      ["s1.jpg"]
      [{ gt_boxes := [⟨10, 10, 15, 15⟩], gt_pids := [0],
         image := "d/Image/SSM/s1.jpg", height := 50, width := 100 }] :=
  ⟨⟨by decide, by decide⟩,
   c2_box_conversion.2 "d" (fun _ => some (100, 50))
     [("s1.jpg", ([⟨10, 10, 5, 5⟩], [0]))] ["s1.jpg"]
     [{ gt_boxes := [⟨10, 10, 15, 15⟩], gt_pids := [0],
        image := "d/Image/SSM/s1.jpg", height := 50, width := 100 }]
     [("s1.jpg", ([⟨10, 10, 15, 15⟩], [0]))] (by decide) (by decide)⟩

/-- A world whose train and test splits produce different record lists:
image "t1.jpg" is the only pool (test) image, "s1.jpg" the only train one. -/
def C1World : World :=
  { pool := ["t1.jpg"]
    images := [("t1.jpg", [⟨1, 1, 2, 2⟩]), ("s1.jpg", [⟨10, 10, 5, 5⟩])]
    train := [[("s1.jpg", ⟨10, 10, 5, 5⟩)]]
    test := [(("t1.jpg", ⟨1, 1, 2, 2⟩), [])]
    sizes := fun _ => some (100, 50)
    cache := fun _ => none }

/-- Claim C1 (refuted; the code has the Python late-binding closure bug):
both registered producers read the loop variable `split` after the loop has
finished, so the producer registered under "cuhk_sysu_train" also returns
the test split's records, and on a world whose splits differ it does not
return the train split's records. -/
theorem c1_register_late_binding :
    (∀ (dn : String) (w : World),
        callProducer (register_cuhk_sysu dn) "cuhk_sysu_train" w =
          some ((load_cuhk_sysu_instances dn w "test").map Prod.fst) ∧
        callProducer (register_cuhk_sysu dn) "cuhk_sysu_test" w =
          some ((load_cuhk_sysu_instances dn w "test").map Prod.fst)) ∧
      callProducer (register_cuhk_sysu "d") "cuhk_sysu_train" C1World ≠
        some ((load_cuhk_sysu_instances "d" C1World "train").map Prod.fst) :=
  ⟨fun _ _ => ⟨rfl, rfl⟩, by decide⟩

/-- A pool naming an image that the global listing does not contain. -/
def C4World : World :=
  { pool := ["a"], images := [], train := [], test := [],
    sizes := fun _ => none, cache := fun _ => none }

/-- Claim C4, counterexample: when the pool contains a name absent from the
global image list, the union of the two index lists is strictly larger than
the global image set, so the claimed unconditional partition fails. -/
theorem c4_union_counterexample :
    "a" ∈ load_image_indexes C4World "test" ∧
      "a" ∉ C4World.images.map Prod.fst ∧
      ¬ (∀ x, (x ∈ load_image_indexes C4World "train" ∨
          x ∈ load_image_indexes C4World "test") ↔ x ∈ C4World.images.map Prod.fst) := by
  refine ⟨by decide, by decide, fun h => ?_⟩
  have := (h "a").mp (Or.inr (by decide))
  exact absurd this (by decide)

/-- Claim C4 as amended: provided every pool (test) name occurs in the
global image list, the train and test index lists are disjoint, their union
ignoring order is the global image set, and the train list is sorted. -/
theorem c4_partition_amended (w : World)
    (hsub : ∀ x ∈ w.pool, x ∈ w.images.map Prod.fst) :
    (∀ x ∈ load_image_indexes w "train", x ∉ load_image_indexes w "test") ∧
    (∀ x, ((x ∈ load_image_indexes w "train" ∨ x ∈ load_image_indexes w "test") ↔
      x ∈ w.images.map Prod.fst)) ∧
    List.Sorted (· ≤ ·) (load_image_indexes w "train") := by
  have hiff : ∀ x, x ∈ load_image_indexes w "train" ↔
      (x ∈ w.images.map Prod.fst ∧ x ∉ w.pool) := by
    intro x
    unfold load_image_indexes
    rw [if_neg (by decide : ¬ ("train" = "test"))]
    rw [(List.perm_insertionSort _ _).mem_iff, List.mem_dedup, List.mem_filter]
    simp
  refine ⟨?_, ?_, ?_⟩
  · intro x hx
    have h2 := (hiff x).mp hx
    unfold load_image_indexes
    rw [if_pos rfl]
    exact h2.2
  · intro x
    constructor
    · rintro (hx | hx)
      · exact ((hiff x).mp hx).1
      · apply hsub
        simpa [load_image_indexes] using hx
    · intro hx
      by_cases hp : x ∈ w.pool
      · right
        simpa [load_image_indexes] using hp
      · left
        exact (hiff x).mpr ⟨hx, hp⟩
  · unfold load_image_indexes
    rw [if_neg (by decide : ¬ ("train" = "test"))]
    exact List.sorted_insertionSort _ _

/-- A world whose pool is contained in the global listing. -/
def C4WitWorld : World :=
  { pool := ["b.jpg"]
    images := [("a.jpg", [⟨0, 0, 1, 1⟩]), ("b.jpg", [⟨0, 0, 1, 1⟩])]
    train := [], test := [], sizes := fun _ => some (1, 1), cache := fun _ => none }

/-- Witness for the amended C4 on a concrete world. -/
theorem c4_partition_amended_witness :
    (∀ x ∈ C4WitWorld.pool, x ∈ C4WitWorld.images.map Prod.fst) ∧
    ((∀ x ∈ load_image_indexes C4WitWorld "train",
        x ∉ load_image_indexes C4WitWorld "test") ∧
      (∀ x, ((x ∈ load_image_indexes C4WitWorld "train" ∨
          x ∈ load_image_indexes C4WitWorld "test") ↔
        x ∈ C4WitWorld.images.map Prod.fst)) ∧
      List.Sorted (· ≤ ·) (load_image_indexes C4WitWorld "train")) :=
  ⟨by decide, c4_partition_amended C4WitWorld (by decide)⟩

/-- Claim C5: a split whose cache file exists is answered from the cache,
unchanged; and re-loading a split right after a successful load (which
caches its result) returns exactly the records and state of that load. -/
theorem c5_cache (dn : String) (w : World) (split : String) :
    (∀ c, w.cache split = some c → load_roidb dn w split = some (c, w)) ∧
    (∀ r w1, load_roidb dn w split = some (r, w1) →
      load_roidb dn w1 split = some (r, w1)) := by
  constructor
  · intro c hc
    unfold load_roidb
    rw [hc]
  · intro r w1 h
    unfold load_roidb at h
    cases hc : w.cache split with
    | some c =>
      rw [hc] at h
      simp only [Option.some.injEq, Prod.mk.injEq] at h
      obtain ⟨rfl, rfl⟩ := h
      unfold load_roidb
      rw [hc]
    | none =>
      simp only [hc] at h
      cases hbd : buildDict [] w.images with
      | none => simp only [hbd] at h; exact Option.noConfusion h
      | some d0 =>
        simp only [hbd] at h
        cases hdp : (if split = "train" then applyTrainFrom d0 0 w.train
            else applyTestFrom d0 0 w.test) with
        | none => simp only [hdp] at h; exact Option.noConfusion h
        | some d =>
          simp only [hdp] at h
          cases hbr : buildRoidb dn w.sizes d (load_image_indexes w split) with
          | none => simp only [hbr] at h; exact Option.noConfusion h
          | some pr =>
            obtain ⟨r0, d2⟩ := pr
            simp only [hbr, Option.some.injEq, Prod.mk.injEq] at h
            obtain ⟨rfl, rfl⟩ := h
            simp [load_roidb]

/-- A world with a pre-existing (empty) cache for "train". -/
def C5WorldA : World :=
  { pool := [], images := [], train := [], test := [],
    sizes := fun _ => none, cache := fun _ => some [] }

/-- A minimal world with no cache, one image, no protocol entries. -/
def C5WorldB : World :=
  { pool := [], images := [("a.jpg", [⟨0, 0, 1, 1⟩])], train := [], test := [],
    sizes := fun _ => some (1, 1), cache := fun _ => none }

/-- The records the first train load of `C5WorldB` assembles. -/
def C5r1 : List RoidbEntry :=
  [{ gt_boxes := [⟨0, 0, 1, 1⟩], gt_pids := [-1],
     image := "d/Image/SSM/a.jpg", height := 1, width := 1 }]

/-- `C5WorldB` after the first train load wrote its cache. -/
def C5WorldB1 : World :=
  { C5WorldB with cache := fun s => if s = "train" then some C5r1 else C5WorldB.cache s }

/-- Witness for C5: the cached world answers from its cache, and re-loading
after a fresh load reproduces the load's result. -/
theorem c5_cache_witness :
    load_roidb "d" C5WorldA "train" = some ([], C5WorldA) ∧
      load_roidb "d" C5WorldB1 "train" = some (C5r1, C5WorldB1) :=
  ⟨(c5_cache "d" C5WorldA "train").1 [] rfl,
   (c5_cache "d" C5WorldB "train").2 C5r1 C5WorldB1 rfl⟩

/-- Claim C8: an image of the global listing left with no box by the
validity filter makes the (uncached) load fail fatally rather than drop the
image: the assertion propagates as an exception (`none`). -/
theorem c8_no_valid_boxes_fatal (dn : String) (w : World) (split im : String)
    (bs : List Box) (hc : w.cache split = none) (hmem : (im, bs) ∈ w.images)
    (hbad : bs.filter validBox = []) : load_roidb dn w split = none := by
  unfold load_roidb
  rw [hc, buildDict_fail hmem hbad]

/-- A world whose only image has a single zero-width box. -/
def C8World : World :=
  { pool := [], images := [("z.jpg", [⟨0, 0, 0, 5⟩])], train := [], test := [],
    sizes := fun _ => some (1, 1), cache := fun _ => none }

/-- Witness for C8 on a concrete world with a zero-width box. -/
theorem c8_no_valid_boxes_fatal_witness :
    (C8World.cache "train" = none ∧ ("z.jpg", [(⟨0, 0, 0, 5⟩ : Box)]) ∈ C8World.images ∧
      ([(⟨0, 0, 0, 5⟩ : Box)].filter validBox = [])) ∧
      load_roidb "d" C8World "train" = none :=
  ⟨⟨rfl, by decide, by decide⟩,
   c8_no_valid_boxes_fatal "d" C8World "train" "z.jpg" [⟨0, 0, 0, 5⟩] rfl
     (by decide) (by decide)⟩

/-- The test-protocol loop actually reaches a dict entry for `item` that is
absent: either the query's image is missing, or a gallery line with a
non-empty box names a missing image and every earlier line of the same
gallery has a non-empty box (so the `break` does not skip it). -/
def MissingAt (d : Dict) (item : TestItem) : Prop :=
  dictGet d item.1.1 = none ∨
    ∃ j, ∃ hj : j < item.2.length,
      (∀ j2 (hj2 : j2 < item.2.length), j2 < j → (item.2.get ⟨j2, hj2⟩).2 ≠ none) ∧
      (item.2.get ⟨j, hj⟩).2.isSome = true ∧
      dictGet d ((item.2.get ⟨j, hj⟩).1) = none

lemma applyScene_missing {d : Dict} {pid : Int} {im : String} {box : Box}
    (h : dictGet d im = none) : applyScene d pid im box = none := by
  unfold applyScene
  rw [h]

lemma applyGallery_missing :
    ∀ {gl : List GalleryLine} {d : Dict} {pid : Int} {j : Nat} (hj : j < gl.length),
      (∀ j2 (hj2 : j2 < gl.length), j2 < j → (gl.get ⟨j2, hj2⟩).2 ≠ none) →
      (gl.get ⟨j, hj⟩).2.isSome = true →
      dictGet d ((gl.get ⟨j, hj⟩).1) = none →
      applyGallery d pid gl = none := by
  intro gl
  induction gl with
  | nil =>
    intro d pid j hj
    exact absurd hj (Nat.not_lt_zero j)
  | cons g t ih =>
    intro d pid j hj hprev hsome hmiss
    obtain ⟨gim, gbox⟩ := g
    cases j with
    | zero =>
      cases gbox with
      | none => exact Bool.noConfusion hsome
      | some box =>
        have hmiss2 : dictGet d gim = none := hmiss
        simp only [applyGallery]
        rw [applyScene_missing hmiss2]
    | succ j1 =>
      have hhead : gbox ≠ none := hprev 0 (Nat.succ_pos _) (Nat.succ_pos _)
      cases gbox with
      | none => exact absurd rfl hhead
      | some b0 =>
        simp only [applyGallery]
        cases has : applyScene d pid gim b0 with
        | none => rfl
        | some d1 =>
          have hj1 : j1 < t.length := Nat.lt_of_succ_lt_succ hj
          have hdom := (applyScene_writes has).1
          refine ih hj1 ?_ hsome ((hdom _).mpr hmiss)
          intro j2 hj2 hlt
          exact hprev (j2 + 1) (Nat.succ_lt_succ hj2) (Nat.succ_lt_succ hlt)

lemma applyTestItem_missing {d : Dict} {pid : Int} {item : TestItem}
    (h : MissingAt d item) : applyTestItem d pid item = none := by
  unfold applyTestItem
  rcases h with hq | ⟨j, hj, hprev, hsome, hmiss⟩
  · rw [applyScene_missing hq]
  · cases has : applyScene d pid item.1.1 item.1.2 with
    | none => rfl
    | some d1 =>
      have hdom := (applyScene_writes has).1
      exact applyGallery_missing hj hprev hsome ((hdom _).mpr hmiss)

lemma applyTestFrom_missing :
    ∀ {items : List TestItem} {d : Dict} {i0 : Int} {item : TestItem},
      item ∈ items → MissingAt d item → applyTestFrom d i0 items = none := by
  intro items
  induction items with
  | nil =>
    intro d i0 item hmem
    exact absurd hmem (List.not_mem_nil _)
  | cons it t ih =>
    intro d i0 item hmem hmiss
    rcases List.mem_cons.mp hmem with rfl | hmem2
    · simp only [applyTestFrom]
      rw [applyTestItem_missing hmiss]
    · simp only [applyTestFrom]
      cases has : applyTestItem d i0 it with
      | none => rfl
      | some d1 =>
        have hdom := (applyTestItem_writes has).1
        have hmiss1 : MissingAt d1 item := by
          rcases hmiss with hq | ⟨j, hj, hprev, hsome, hm⟩
          · exact Or.inl ((hdom _).mpr hq)
          · exact Or.inr ⟨j, hj, hprev, hsome, (hdom _).mpr hm⟩
        exact ih hmem2 hmiss1

/-- As `MissingAt`, but phrased against the global image listing instead of
the parsed dictionary. -/
def NamesMissingImage (w : World) (item : TestItem) : Prop :=
  item.1.1 ∉ w.images.map Prod.fst ∨
    ∃ j, ∃ hj : j < item.2.length,
      (∀ j2 (hj2 : j2 < item.2.length), j2 < j → (item.2.get ⟨j2, hj2⟩).2 ≠ none) ∧
      (item.2.get ⟨j, hj⟩).2.isSome = true ∧
      (item.2.get ⟨j, hj⟩).1 ∉ w.images.map Prod.fst

/-- A world whose only test item has a gallery that first breaks (empty
box) and only then names a missing image. -/
def C9World : World :=
  { pool := ["g1.jpg"]
    images := [("g1.jpg", [⟨1, 1, 2, 2⟩])]
    train := []
    test := [(("g1.jpg", ⟨1, 1, 2, 2⟩),
              [("g1.jpg", none), ("missing.jpg", some ⟨1, 1, 2, 2⟩)])]
    sizes := fun _ => some (5, 5)
    cache := fun _ => none }

/-- Claim C9, counterexample: a gallery entry naming an image absent from
the global listing does not make the test load raise when an earlier entry
of the same gallery has an empty box — the `break` skips it and the load
succeeds. -/
theorem c9_skipped_gallery_counterexample :
    "missing.jpg" ∉ C9World.images.map Prod.fst ∧
    (∃ item ∈ C9World.test, ∃ g ∈ item.2, g.1 = "missing.jpg" ∧ g.2.isSome = true) ∧
    (load_roidb "d" C9World "test").isSome = true := by decide

/-- Claim C9 as amended: the uncached test load raises a missing-key error
(`none`) when a protocol entry whose dict lookup is actually reached names
an image absent from the global listing — the query of any item, or a
non-empty-box gallery line not preceded in its gallery by an empty box. -/
theorem c9_missing_image_amended (dn : String) (w : World) (item : TestItem)
    (hc : w.cache "test" = none) (hmem : item ∈ w.test)
    (hmiss : NamesMissingImage w item) :
    load_roidb dn w "test" = none := by
  unfold load_roidb
  cases hbd : buildDict [] w.images with
  | none => simp only [hc, hbd]
  | some d0 =>
    have hmiss0 : MissingAt d0 item := by
      rcases hmiss with hq | ⟨j, hj, hprev, hsome, hm⟩
      · exact Or.inl (buildDict_not_mem hbd rfl hq)
      · exact Or.inr ⟨j, hj, hprev, hsome, buildDict_not_mem hbd rfl hm⟩
    simp only [hc, hbd]
    rw [if_neg (by decide : ¬ ("test" = "train"))]
    rw [applyTestFrom_missing hmem hmiss0]

/-- A world whose only test item's gallery directly names a missing image
with a non-empty box. -/
def C9WitWorld : World :=
  { pool := ["g1.jpg"]
    images := [("g1.jpg", [⟨1, 1, 2, 2⟩])]
    train := []
    test := [(("g1.jpg", ⟨1, 1, 2, 2⟩), [("missing.jpg", some ⟨1, 1, 2, 2⟩)])]
    sizes := fun _ => some (5, 5)
    cache := fun _ => none }

/-- Witness for the amended C9 on a concrete world. -/
theorem c9_missing_image_amended_witness :
    (C9WitWorld.cache "test" = none ∧
      ((("g1.jpg", ⟨1, 1, 2, 2⟩),
        [("missing.jpg", some ⟨1, 1, 2, 2⟩)]) : TestItem) ∈ C9WitWorld.test ∧
      NamesMissingImage C9WitWorld
        (("g1.jpg", ⟨1, 1, 2, 2⟩), [("missing.jpg", some ⟨1, 1, 2, 2⟩)])) ∧
    load_roidb "d" C9WitWorld "test" = none :=
  ⟨⟨rfl, by decide, Or.inr ⟨0, by decide, by decide, by decide, by decide⟩⟩,
   c9_missing_image_amended "d" C9WitWorld
     (("g1.jpg", ⟨1, 1, 2, 2⟩), [("missing.jpg", some ⟨1, 1, 2, 2⟩)]) rfl (by decide)
     (Or.inr ⟨0, by decide, by decide, by decide, by decide⟩)⟩

/-- Claim C7: in a freshly assembled split (no duplicate index names, no
stale cache, image files with positive sizes — the latter two being
environment facts, not checks the code performs), every record has
positive width and height and every box satisfies `x2 > x1` and `y2 > y1`. -/
theorem c7_positive_dims_and_boxes (dn : String) (w : World) (split : String)
    (r : List RoidbEntry) (w1 : World)
    (hsz : ∀ im wd ht, w.sizes im = some (wd, ht) → 0 < wd ∧ 0 < ht)
    (hnd : (load_image_indexes w split).Nodup)
    (hc : w.cache split = none)
    (h : load_roidb dn w split = some (r, w1)) :
    ∀ rec ∈ r, 0 < rec.width ∧ 0 < rec.height ∧
      ∀ bx ∈ rec.gt_boxes, bx.a < bx.c ∧ bx.b < bx.d := by
  unfold load_roidb at h
  simp only [hc] at h
  cases hbd : buildDict [] w.images with
  | none => simp only [hbd] at h; exact Option.noConfusion h
  | some d0 =>
    simp only [hbd] at h
    cases hdp : (if split = "train" then applyTrainFrom d0 0 w.train
        else applyTestFrom d0 0 w.test) with
    | none => simp only [hdp] at h; exact Option.noConfusion h
    | some d =>
      simp only [hdp] at h
      cases hbr : buildRoidb dn w.sizes d (load_image_indexes w split) with
      | none => simp only [hbr] at h; exact Option.noConfusion h
      | some pr =>
        obtain ⟨r0, d2⟩ := pr
        simp only [hbr, Option.some.injEq, Prod.mk.injEq] at h
        obtain ⟨rfl, rfl⟩ := h
        have hW : Writes d0 d (fun _ _ _ _ => True) := by
          by_cases hs : split = "train"
          · rw [if_pos hs] at hdp
            exact (applyTrainFrom_writes hdp).mono fun _ _ _ _ _ => trivial
          · rw [if_neg hs] at hdp
            exact applyTestFrom_writes hdp
        have hspec := buildRoidb_spec dn w.sizes hnd hbr
        intro rec hrec
        obtain ⟨im, _, hRS⟩ := forall2_mem_right hspec hrec
        obtain ⟨bs, ps, wd, ht, hg, hszeq, rfl⟩ := hRS
        refine ⟨(hsz im wd ht hszeq).1, (hsz im wd ht hszeq).2, ?_⟩
        intro bx hbx
        obtain ⟨b0, hb0, rfl⟩ := List.mem_map.mp hbx
        obtain ⟨ps0, hg0, _, _⟩ := hW.2 im bs ps hg
        obtain ⟨src, _, hbsfil, _, _⟩ := buildDict_entries hbd hg0
        have hb0v : validBox b0 = true := by
          have hmem2 : b0 ∈ src.filter validBox := by
            rw [← hbsfil]
            exact hb0
          exact (List.mem_filter.mp hmem2).2
        simp only [validBox, Bool.and_eq_true, decide_eq_true_eq] at hb0v
        unfold conv
        constructor
        · simpa using hb0v.1
        · simpa using hb0v.2

/-- Claim C6: in a freshly assembled train roidb, every identity lies in
`[-1, N-1]` for N the number of training-protocol persons; an identity is
non-negative exactly when some person's scene box (in `(x, y, w, h)` form,
i.e. before conversion) matches that record's box and then equals that
person's index; with no matching scene the identity stays `-1`. -/
theorem c6_train_pid_range (dn : String) (w : World) (r : List RoidbEntry)
    (w1 : World) (hc : w.cache "train" = none)
    (hnd : (load_image_indexes w "train").Nodup)
    (h : load_roidb dn w "train" = some (r, w1)) :
    List.Forall₂ (fun im rec => ∃ bs : List Box,
      rec.gt_boxes = bs.map conv ∧ rec.gt_pids.length = bs.length ∧
      ∀ j (hj : j < rec.gt_pids.length),
        (-1 ≤ rec.gt_pids.get ⟨j, hj⟩ ∧
          rec.gt_pids.get ⟨j, hj⟩ < (w.train.length : Int)) ∧
        (rec.gt_pids.get ⟨j, hj⟩ ≠ -1 →
          ∃ m, ∃ hm : m < w.train.length, ∃ sc ∈ w.train.get ⟨m, hm⟩,
            sc.1 = im ∧ (∃ hb : j < bs.length, bs.get ⟨j, hb⟩ = sc.2) ∧
            rec.gt_pids.get ⟨j, hj⟩ = (m : Int)) ∧
        ((∀ m (hm : m < w.train.length), ∀ sc ∈ w.train.get ⟨m, hm⟩,
            sc.1 = im → ∀ hb : j < bs.length, bs.get ⟨j, hb⟩ ≠ sc.2) →
          rec.gt_pids.get ⟨j, hj⟩ = -1))
      (load_image_indexes w "train") r := by
  unfold load_roidb at h
  simp only [hc, if_true] at h
  cases hbd : buildDict [] w.images with
  | none => simp only [hbd] at h; exact Option.noConfusion h
  | some d0 =>
    simp only [hbd] at h
    cases hdp : applyTrainFrom d0 0 w.train with
    | none => simp only [hdp] at h; exact Option.noConfusion h
    | some d =>
      simp only [hdp] at h
      cases hbr : buildRoidb dn w.sizes d (load_image_indexes w "train") with
      | none => simp only [hbr] at h; exact Option.noConfusion h
      | some pr =>
        obtain ⟨r0, d2⟩ := pr
        simp only [hbr, Option.some.injEq, Prod.mk.injEq] at h
        obtain ⟨rfl, rfl⟩ := h
        have hW := applyTrainFrom_writes hdp
        have hspec := buildRoidb_spec dn w.sizes hnd hbr
        refine forall2_imp_mem hspec ?_
        intro im _ rec hRS
        obtain ⟨bs, ps, wd, ht, hg, hszeq, rfl⟩ := hRS
        obtain ⟨ps0, hg0, hlen, hvals⟩ := hW.2 im bs ps hg
        obtain ⟨src, hsrc, hfil, hne0, hrep⟩ := buildDict_entries hbd hg0
        have hrep2 : ps0 = List.replicate bs.length (-1) := hrep
        have hall : ∀ v ∈ ps0, v = -1 := by
          intro v hv
          rw [hrep2] at hv
          exact List.eq_of_mem_replicate hv
        have hlen0 : ps0.length = bs.length := by
          rw [hrep2, List.length_replicate]
        refine ⟨bs, rfl, hlen.trans hlen0, ?_⟩
        intro j hj
        have hj0 : j < ps0.length := hlen ▸ hj
        have hval := hvals j hj hj0
        have hps0 : ps0.get ⟨j, hj0⟩ = -1 := hall _ (List.get_mem _ _ _)
        refine ⟨?_, ?_, ?_⟩
        · rcases hval with he | ⟨m, hm, _, hv⟩
          · rw [he, hps0]
            constructor
            · omega
            · omega
          · rw [hv]
            constructor
            · omega
            · omega
        · intro hne1
          rcases hval with he | ⟨m, hm, ⟨sc, hscmem, hx, hb⟩, hv⟩
          · rw [he, hps0] at hne1
            exact absurd rfl hne1
          · refine ⟨m, hm, sc, hscmem, hx.symm, hb, ?_⟩
            rw [hv]
            omega
        · intro hno
          rcases hval with he | ⟨m, hm, ⟨sc, hscmem, hx, hb⟩, hv⟩
          · rw [he, hps0]
          · obtain ⟨hbj, hbeq⟩ := hb
            exact absurd hbeq (hno m hm sc hscmem hx.symm hbj)

/-- A world with one image holding a matched and an unmatched box, for the
C6 witness. -/
def C6World : World :=
  { pool := []
    images := [("s.jpg", [⟨10, 10, 5, 5⟩, ⟨20, 20, 3, 3⟩])]
    train := [[("s.jpg", ⟨10, 10, 5, 5⟩)]]
    test := []
    sizes := fun _ => some (30, 30)
    cache := fun _ => none }

/-- The record list the train load of `C6World` assembles. -/
def C6r : List RoidbEntry :=
  [{ gt_boxes := [⟨10, 10, 15, 15⟩, ⟨20, 20, 23, 23⟩], gt_pids := [0, -1],
     image := "d/Image/SSM/s.jpg", height := 30, width := 30 }]

/-- `C6World` after the train load wrote its cache. -/
def C6w1 : World :=
  { C6World with cache := fun s => if s = "train" then some C6r else C6World.cache s }

/-- Witness for C6 on a concrete world. -/
theorem c6_train_pid_range_witness :
    (C6World.cache "train" = none ∧ (load_image_indexes C6World "train").Nodup ∧
      load_roidb "d" C6World "train" = some (C6r, C6w1)) ∧
    List.Forall₂ (fun im rec => ∃ bs : List Box,
      rec.gt_boxes = bs.map conv ∧ rec.gt_pids.length = bs.length ∧
      ∀ j (hj : j < rec.gt_pids.length),
        (-1 ≤ rec.gt_pids.get ⟨j, hj⟩ ∧
          rec.gt_pids.get ⟨j, hj⟩ < (C6World.train.length : Int)) ∧
        (rec.gt_pids.get ⟨j, hj⟩ ≠ -1 →
          ∃ m, ∃ hm : m < C6World.train.length, ∃ sc ∈ C6World.train.get ⟨m, hm⟩,
            sc.1 = im ∧ (∃ hb : j < bs.length, bs.get ⟨j, hb⟩ = sc.2) ∧
            rec.gt_pids.get ⟨j, hj⟩ = (m : Int)) ∧
        ((∀ m (hm : m < C6World.train.length), ∀ sc ∈ C6World.train.get ⟨m, hm⟩,
            sc.1 = im → ∀ hb : j < bs.length, bs.get ⟨j, hb⟩ ≠ sc.2) →
          rec.gt_pids.get ⟨j, hj⟩ = -1))
      (load_image_indexes C6World "train") C6r :=
  ⟨⟨rfl, by decide, rfl⟩,
   c6_train_pid_range "d" C6World C6r C6w1 rfl (by decide) rfl⟩

/-- A world with one image and no protocol entries, for the C7 witness. -/
def C7World : World :=
  { pool := [], images := [("a.jpg", [⟨2, 3, 4, 5⟩])], train := [], test := [],
    sizes := fun _ => some (7, 9), cache := fun _ => none }

/-- The record list the train load of `C7World` assembles. -/
def C7r : List RoidbEntry :=
  [{ gt_boxes := [⟨2, 3, 6, 8⟩], gt_pids := [-1],
     image := "d/Image/SSM/a.jpg", height := 9, width := 7 }]

/-- `C7World` after the train load wrote its cache. -/
def C7w1 : World :=
  { C7World with cache := fun s => if s = "train" then some C7r else C7World.cache s }

/-- Witness for C7 on a concrete world. -/
theorem c7_positive_dims_and_boxes_witness :
    ((∀ im wd ht, C7World.sizes im = some (wd, ht) → 0 < wd ∧ 0 < ht) ∧
      (load_image_indexes C7World "train").Nodup ∧
      C7World.cache "train" = none ∧
      load_roidb "d" C7World "train" = some (C7r, C7w1)) ∧
    (∀ rec ∈ C7r, 0 < rec.width ∧ 0 < rec.height ∧
      ∀ bx ∈ rec.gt_boxes, bx.a < bx.c ∧ bx.b < bx.d) := by
  have hsz : ∀ im wd ht, C7World.sizes im = some (wd, ht) → 0 < wd ∧ 0 < ht := by
    intro im wd ht hh
    simp only [C7World, Option.some.injEq, Prod.mk.injEq] at hh
    omega
  exact ⟨⟨hsz, by decide, rfl, rfl⟩,
    c7_positive_dims_and_boxes "d" C7World "train" C7r C7w1 hsz (by decide) rfl rfl⟩

end CuhkSysu
